import Mathlib

/-!
Verification development for the progress-tracking script
`docs/assets/js/progress.js` of the `top-german-words` repository.

The script defines a single `ProgressManager` class.  We give a shallow
embedding of its pure core:

* the Progress Document `this.progress` (a `pages` mapping from page id to
  an array of learned word strings),
* the set helpers `getSet` / `setSet`,
* the click handler installed by `addWordCellListener` (the toggle path),
* the aggregation pair `computeTotals` / `updateProgressUI`
  (`recalculateAndUpdateUI`),
* the parse/normalisation logic of `loadFromFile` and the install step of
  `boot` (over a small JSON value model),
* `saveProgressToDB` (try/catch around the IndexedDB put),
* `ensurePermission` (File System Access permission negotiation).

DOM cells are modelled by a `Cell` record carrying the text content, the
`learned` CSS class bit, the `data-listener-bound` flag and a count of
attached click handlers.  Asynchronous platform calls are modelled by
explicit success/failure parameters.
-/

namespace ProgressJS

/-- A `td.word` DOM cell: its text content, whether its classList contains
`learned`, whether `td.dataset.listenerBound === '1'`, and how many click
handlers have been attached to it by `addWordCellListener`. -/
structure Cell where
  text : String
  learned : Bool
  listenerBound : Bool := false
  handlers : Nat := 0
  deriving Repr, DecidableEq

/-- The Progress Document `this.progress`: an object with a `pages` field
mapping page-id strings to arrays of learned word strings.  JavaScript
object fields are modelled as an association list in insertion order. -/
structure Progress where
  pages : List (String × List String)
  deriving Repr, DecidableEq

/-- The constructor value `this.progress = { pages: {} }`. -/
def emptyProgress : Progress := ⟨[]⟩

/-- JavaScript `new Set(arr)`: de-duplicate keeping the first occurrence of
each element, preserving insertion order.  (Later occurrences of the head
are filtered out of the recursively de-duplicated tail.) -/
def jsNewSet : List String → List String
  | [] => []
  | a :: rest => a :: (jsNewSet rest).filter fun x => decide (x ≠ a)

/-- JavaScript `String.prototype.trim()`: strip leading and trailing
whitespace, modelled on the character list of the string. -/
def jsTrim (s : String) : String :=
  ⟨((s.data.dropWhile Char.isWhitespace).reverse.dropWhile
      Char.isWhitespace).reverse⟩

/-- JavaScript `Array.prototype.sort()` on an array of strings (default
comparator: lexicographic string order). -/
def jsSort (l : List String) : List String :=
  List.insertionSort (· ≤ ·) l

/-- JavaScript object property read `pages[pid]`, `undefined` when the key
is absent. -/
def pagesGet (pages : List (String × List String)) (pid : String) :
    Option (List String) :=
  match pages with
  | [] => none
  | (k, v) :: rest => if k = pid then some v else pagesGet rest pid

/-- JavaScript object property write `pages[pid] = v`: overwrite the value
at an existing key, else append the key. -/
def pagesSet (pages : List (String × List String)) (pid : String)
    (v : List String) : List (String × List String) :=
  match pages with
  | [] => [(pid, v)]
  | (k, w) :: rest =>
      if k = pid then (pid, v) :: rest else (k, w) :: pagesSet rest pid v

/-- `getSet()`: `const arr = this.progress.pages[this.PAGE_ID] || [];
return new Set(arr);`.  The result is the learned-word set of the active
page, as a duplicate-free list. -/
def getSet (progress : Progress) (pageId : String) : List String :=
  jsNewSet ((pagesGet progress.pages pageId).getD [])

/-- `setSet(set)`: `this.progress.pages[this.PAGE_ID] = [...set].sort();`. -/
def setSet (progress : Progress) (pageId : String) (set : List String) :
    Progress :=
  ⟨pagesSet progress.pages pageId (jsSort set)⟩

/-! ### The toggle path (`addWordCellListener` click handler) -/

/-- JavaScript `Set.prototype.delete`: remove the (unique) occurrence. -/
def jsSetDelete (set : List String) (w : String) : List String :=
  set.erase w

/-- JavaScript `Set.prototype.add`: append if not already a member. -/
def jsSetAdd (set : List String) (w : String) : List String :=
  if w ∈ set then set else set ++ [w]

/-- The state the click handler touches: the page id `this.PAGE_ID`, the
Progress Document and the word cells. -/
structure PMState where
  pageId : String
  progress : Progress
  wordCells : List Cell
  deriving Repr, DecidableEq

/-- The body of the click handler installed by `addWordCellListener`,
firing on cell `i`:  take `w = td.textContent.trim()`; if `w` is in the
set, delete it and remove the `learned` class, else add it and add the
class; then `setSet`.  (The subsequent `saveProgressToDB`, `applyHide` and
`recalculateAndUpdateUI` calls do not modify the document or the class
bits.) -/
def clickWordCell (st : PMState) (i : Nat) : PMState :=
  match st.wordCells[i]? with
  | none => st
  | some td =>
      let w := jsTrim td.text
      let set := getSet st.progress st.pageId
      if w ∈ set then
        { st with
          progress := setSet st.progress st.pageId (jsSetDelete set w),
          wordCells := st.wordCells.set i { td with learned := false } }
      else
        { st with
          progress := setSet st.progress st.pageId (jsSetAdd set w),
          wordCells := st.wordCells.set i { td with learned := true } }

/-- A sequence of toggle activations, each naming the index of the clicked
cell. -/
def clickSeq (st : PMState) (is : List Nat) : PMState :=
  is.foldl clickWordCell st

/-! ### Progress aggregation (`computeTotals` / `updateProgressUI`) -/

/-- The triple published to the status surface by `updateProgressUI`:
`this.progressText.textContent` shows `learned/total (percent%)` and the
bar width / `aria-valuenow` show `percent`. -/
structure PublishedProgress where
  learned : Nat
  total : Nat
  percent : Nat
  deriving Repr, DecidableEq

/-- `computeTotals()`: `totalWords = wordCells.length`;
`learnedCount = max(learnedByClass, learnedBySet)` where `learnedByClass`
counts cells with the `learned` class and `learnedBySet` is the size of the
model set for the active page.  Returns `(totalWords, learnedCount)`. -/
def computeTotals (wordCells : List Cell) (progress : Progress)
    (pageId : String) : Nat × Nat :=
  let set := getSet progress pageId
  let totalWords := wordCells.length
  let learnedByClass := wordCells.countP (·.learned)
  let learnedBySet := set.length
  (totalWords, max learnedByClass learnedBySet)

/-- `Math.round` on the non-negative quotient `(learned / total) * 100`,
computed exactly: round half away from zero, i.e. `⌊(100·l)/t + 1/2⌋`,
which for naturals is `(200·l + t) / (2·t)` with floor division. -/
def jsRoundPercent (learned total : Nat) : Nat :=
  (200 * learned + total) / (2 * total)

/-- `updateProgressUI()`:  `total = totalWords || 0`;
`learned = min(learnedCount || 0, total)`;
`percent = total === 0 ? 0 : Math.round((learned / total) * 100)`;
publish the triple. -/
def updateProgressUI (totalWords learnedCount : Nat) : PublishedProgress :=
  let total := totalWords
  let learned := min learnedCount total
  let percent := if total = 0 then 0 else jsRoundPercent learned total
  ⟨learned, total, percent⟩

/-- `recalculateAndUpdateUI()` = `computeTotals(); updateProgressUI();`,
the `recompute()` operation of the Progress Aggregator. -/
def recalculateAndUpdateUI (wordCells : List Cell) (progress : Progress)
    (pageId : String) : PublishedProgress :=
  let t := computeTotals wordCells progress pageId
  updateProgressUI t.1 t.2

/-! ### Listener binding (`addWordCellListener` guard, observer scan) -/

/-- `addWordCellListener(td)`: if `td.dataset.listenerBound === '1'` the
call returns immediately (the guard also returns on a null node, which a
`Cell` value cannot be); otherwise it sets the flag and attaches one click
handler. -/
def addWordCellListener (td : Cell) : Cell :=
  if td.listenerBound then td
  else { td with listenerBound := true, handlers := td.handlers + 1 }

/-- One scan over a batch of word cells (the constructor pass over
`this.wordCells`, or the MutationObserver pass over the `td.word` cells of
the added nodes): call `addWordCellListener` on each. -/
def bindCells (cells : List Cell) : List Cell :=
  cells.map addWordCellListener

/-- Total number of click handlers attached across a batch of cells. -/
def totalHandlers (cells : List Cell) : Nat :=
  (cells.map (·.handlers)).sum

/-! ### JSON values (for `loadFromFile` and `boot`) -/

/-- A JavaScript/JSON value, as produced by `JSON.parse` or read back from
IndexedDB.  Objects are association lists of fields in insertion order. -/
inductive JsValue where
  | null
  | bool (b : Bool)
  | num (n : Int)
  | str (s : String)
  | arr (elems : List JsValue)
  | obj (fields : List (String × JsValue))

/-- JavaScript truthiness of a value. -/
def truthy : JsValue → Bool
  | .null => false
  | .bool b => b
  | .num n => decide (n ≠ 0)
  | .str s => decide (s ≠ "")
  | .arr _ => true
  | .obj _ => true

/-- `typeof v === 'object'` (true for objects, arrays and `null`). -/
def isObjectType : JsValue → Bool
  | .null => true
  | .arr _ => true
  | .obj _ => true
  | _ => false

/-- Field lookup in a JavaScript object (first matching key). -/
def lookupField : List (String × JsValue) → String → Option JsValue
  | [], _ => none
  | (k, v) :: rest, key => if k = key then some v else lookupField rest key

/-- Property access `v.key`: `undefined` (`none`) on non-objects and
missing keys. -/
def getProp (v : JsValue) (key : String) : Option JsValue :=
  match v with
  | .obj fields => lookupField fields key
  | _ => none

/-- Truthiness of the property access `v.key` (`undefined` is falsy). -/
def truthyProp (v : JsValue) (key : String) : Bool :=
  match getProp v key with
  | some f => truthy f
  | none => false

/-- The empty Progress Document `{ pages: {} }` as a JSON value. -/
def emptyDocJs : JsValue := .obj [("pages", .obj [])]

/-- The assignment `loadFromFile` makes to `this.progress`.  `parsed` is
`none` when `JSON.parse` threw, else the parsed value:

    this.progress = parsed && typeof parsed === 'object'
      ? (parsed.pages ? parsed : { pages: parsed })
      : { pages: {} };

with the `catch` branch assigning `{ pages: {} }`. -/
def loadFromFileAssign (parsed : Option JsValue) : JsValue :=
  match parsed with
  | none => emptyDocJs
  | some v =>
      if truthy v && isObjectType v then
        if truthyProp v "pages" then v else .obj [("pages", v)]
      else emptyDocJs

/-- The install step of `boot()`: `if (stored) { this.progress = stored;
... }` — a truthy stored value is installed verbatim, otherwise
`this.progress` keeps its previous value.  `stored` is `none` when the
IndexedDB read found no entry (`undefined`). -/
def bootAssign (stored : Option JsValue) (progress : JsValue) : JsValue :=
  match stored with
  | none => progress
  | some v => if truthy v then v else progress

/-- Spec §6 document shape: an object whose `pages` field is an object
mapping page-identifier strings to arrays of strings. -/
def isStringArray : JsValue → Bool
  | .arr xs => xs.all fun x => match x with | .str _ => true | _ => false
  | _ => false

/-- Whether a JSON value has the Progress Document shape of spec §6 (a
`pages` object whose values are arrays of strings; the de-duplication and
sortedness of the arrays is checked separately). -/
def isValidDocShape : JsValue → Bool
  | .obj fields =>
      match lookupField fields "pages" with
      | some (.obj pfields) => pfields.all fun p => isStringArray p.2
      | _ => false
  | _ => false

/-- Decode a JSON array of strings. -/
def stringsOf : List JsValue → Option (List String)
  | [] => some []
  | .str s :: rest => (stringsOf rest).map (s :: ·)
  | _ => none

/-- Decode the entries of a JSON `pages` object. -/
def pageEntriesOf : List (String × JsValue) → Option (List (String × List String))
  | [] => some []
  | (k, v) :: rest =>
      match v with
      | .arr xs =>
          match stringsOf xs, pageEntriesOf rest with
          | some ws, some r => some ((k, ws) :: r)
          | _, _ => none
      | _ => none

/-- Decode a JSON value into a `Progress` record (defined when the value
has the document shape). -/
def progressOfJs (v : JsValue) : Option Progress :=
  match v with
  | .obj fields =>
      match lookupField fields "pages" with
      | some (.obj pfields) => (pageEntriesOf pfields).map Progress.mk
      | _ => none
  | _ => none

/-- Invariant on a Progress Document: each page's learned-item array is
sorted in canonical (lexicographic) order and duplicate-free. -/
def canonicalPages (p : Progress) : Prop :=
  ∀ e ∈ p.pages, e.2.Sorted (· ≤ ·) ∧ e.2.Nodup

/-! ### Durable-store save (`saveProgressToDB`) -/

/-- The state `saveProgressToDB` touches: the in-memory document, the
document currently stored in the `german-words-db` object store (an
aborted transaction leaves it unchanged), and the status line
`this.statusEl.textContent`. -/
structure SaveState where
  progress : Progress
  dbStored : Option Progress
  statusText : String
  deriving Repr, DecidableEq

/-- `saveProgressToDB()`: try to open the database and `put` the document;
on success report saved, on any failure the `catch` block only writes a
failure message to the status element.  `putOk` models whether the
open/put/transaction succeeded.  The function returns the new state (it
never throws: every failure is caught). -/
def saveProgressToDB (putOk : Bool) (st : SaveState) : SaveState :=
  if putOk then
    { st with dbStored := some st.progress, statusText := "Прогрес збережено." }
  else
    { st with statusText := "Помилка збереження." }

/-! ### File-system permission negotiation (`ensurePermission`) -/

/-- A File System Access permission state string. -/
inductive PermissionState where
  | granted
  | denied
  | prompt
  deriving Repr, DecidableEq

/-- A file handle, described by what its two permission calls would
return: `queryPermission({mode:'readwrite'})` and
`requestPermission({mode:'readwrite'})` (the latter never answers
`prompt`, but nothing below depends on that). -/
structure FileHandle where
  queryResult : PermissionState
  requestResult : PermissionState
  deriving Repr, DecidableEq

/-- The outcome of `ensurePermission`: its return value together with how
many times it called `queryPermission` and `requestPermission`. -/
structure PermissionOutcome where
  result : PermissionState
  queries : Nat
  requests : Nat
  deriving Repr, DecidableEq

/-- `ensurePermission(handle)`: null handle ⇒ `'denied'` with no platform
calls; otherwise query once, return `'granted'` as is, request once only
from the `'prompt'` state, and return the final state. -/
def ensurePermission : Option FileHandle → PermissionOutcome
  | none => ⟨.denied, 0, 0⟩
  | some h =>
      let state := h.queryResult
      if state = .granted then ⟨state, 1, 0⟩
      else if state = .prompt then ⟨h.requestResult, 1, 1⟩
      else ⟨state, 1, 0⟩

/-! ### Consistency invariant tying cells to the model -/

/-- The item identifiers of a cell list: the trimmed text contents
(`td.textContent.trim()`), in order. -/
def trimmedTexts (cells : List Cell) : List String :=
  cells.map fun c => jsTrim c.text

/-- The reconciled state the Content Reconciler establishes (distinct item
identifiers, every learned-set member shown on some cell, and each cell's
`learned` class agreeing with the model set), as maintained across
toggles. -/
def Inv (st : PMState) : Prop :=
  (trimmedTexts st.wordCells).Nodup ∧
  (∀ x ∈ getSet st.progress st.pageId, x ∈ trimmedTexts st.wordCells) ∧
  (∀ j (hj : j < st.wordCells.length),
      (st.wordCells.get ⟨j, hj⟩).learned =
        decide (jsTrim (st.wordCells.get ⟨j, hj⟩).text ∈
          getSet st.progress st.pageId))

instance decidableInv (st : PMState) : Decidable (Inv st) :=
  inferInstanceAs (Decidable
    ((trimmedTexts st.wordCells).Nodup ∧
     (∀ x ∈ getSet st.progress st.pageId, x ∈ trimmedTexts st.wordCells) ∧
     (∀ j (hj : j < st.wordCells.length),
        (st.wordCells.get ⟨j, hj⟩).learned =
          decide (jsTrim (st.wordCells.get ⟨j, hj⟩).text ∈
            getSet st.progress st.pageId))))

/-- A small reconciled manager state (two bound cells, empty document),
used to instantiate the toggle properties. -/
def sampleState : PMState :=
  ⟨"p", emptyProgress,
   [{ text := "a", learned := false }, { text := "b", learned := false }]⟩

/-- Five freshly inserted, unbound word cells (the worked example of the
spec §8). -/
def cells5 : List Cell :=
  [{ text := "n1", learned := false }, { text := "n2", learned := false },
   { text := "n3", learned := false }, { text := "n4", learned := false },
   { text := "n5", learned := false }]

/-- Ten visible word cells of which three carry the `learned` class (the
worked example of the spec). -/
def cells10 : List Cell :=
  [{ text := "w1", learned := true }, { text := "w2", learned := false },
   { text := "w3", learned := true }, { text := "w4", learned := false },
   { text := "w5", learned := true }, { text := "w6", learned := false },
   { text := "w7", learned := false }, { text := "w8", learned := false },
   { text := "w9", learned := false }, { text := "w10", learned := false }]

end ProgressJS

namespace ProgressJS

/-! ### Helper lemmas about the set and document primitives -/

theorem mem_jsNewSet (x : String) : ∀ (l : List String), x ∈ jsNewSet l ↔ x ∈ l
  | [] => Iff.rfl
  | a :: rest => by
    simp only [jsNewSet, List.mem_cons, List.mem_filter,
      mem_jsNewSet x rest, decide_eq_true_eq]
    by_cases hxa : x = a
    · simp [hxa]
    · simp [hxa]

theorem nodup_jsNewSet : ∀ (l : List String), (jsNewSet l).Nodup
  | [] => List.nodup_nil
  | a :: rest => by
    simp only [jsNewSet, List.nodup_cons]
    refine ⟨?_, List.Nodup.filter _ (nodup_jsNewSet rest)⟩
    simp [List.mem_filter]

theorem jsNewSet_eq_self : ∀ {l : List String}, l.Nodup → jsNewSet l = l
  | [], _ => rfl
  | a :: rest, h => by
    rw [List.nodup_cons] at h
    have hfilter : (jsNewSet rest).filter (fun x => decide (x ≠ a)) = jsNewSet rest :=
      List.filter_eq_self.mpr fun b hb =>
        decide_eq_true fun hba => h.1 (hba ▸ (mem_jsNewSet b rest).mp hb)
    rw [jsNewSet, hfilter, jsNewSet_eq_self h.2]

theorem mem_jsSort {x : String} {l : List String} : x ∈ jsSort l ↔ x ∈ l :=
  (List.perm_insertionSort _ l).mem_iff

theorem nodup_jsSort {l : List String} (h : l.Nodup) : (jsSort l).Nodup :=
  (List.perm_insertionSort _ l).nodup_iff.mpr h

theorem sorted_jsSort (l : List String) : (jsSort l).Sorted (· ≤ ·) :=
  List.sorted_insertionSort _ l

theorem length_jsSort (l : List String) : (jsSort l).length = l.length :=
  (List.perm_insertionSort _ l).length_eq

theorem pagesGet_pagesSet_self :
    ∀ (ps : List (String × List String)) (pid : String) (v : List String),
      pagesGet (pagesSet ps pid v) pid = some v
  | [], pid, v => by simp [pagesSet, pagesGet]
  | (k, w) :: rest, pid, v => by
    by_cases hk : k = pid
    · simp [pagesSet, hk, pagesGet]
    · simp [pagesSet, hk, pagesGet, pagesGet_pagesSet_self rest pid v]

theorem pagesGet_pagesSet_ne {q pid : String} (hne : q ≠ pid) :
    ∀ (ps : List (String × List String)) (v : List String),
      pagesGet (pagesSet ps pid v) q = pagesGet ps q
  | [], v => by
    have hpq : ¬ pid = q := fun h => hne h.symm
    simp [pagesSet, pagesGet, hpq]
  | (k, w) :: rest, v => by
    by_cases hk : k = pid
    · subst hk
      have hpq : ¬ k = q := fun h => hne h.symm
      simp [pagesSet, pagesGet, hpq]
    · simp [pagesSet, hk, pagesGet, pagesGet_pagesSet_ne hne rest v]

theorem mem_pagesSet :
    ∀ {ps : List (String × List String)} {pid : String} {v : List String}
      {e : String × List String},
      e ∈ pagesSet ps pid v → e = (pid, v) ∨ e ∈ ps
  | [], pid, v, e, he => by simpa [pagesSet] using he
  | (k, w) :: rest, pid, v, e, he => by
    by_cases hk : k = pid
    · simp only [pagesSet, if_pos hk] at he
      rcases List.mem_cons.mp he with h1 | h1
      · exact Or.inl h1
      · exact Or.inr (List.mem_cons_of_mem _ h1)
    · simp only [pagesSet, if_neg hk] at he
      rcases List.mem_cons.mp he with h1 | h1
      · exact Or.inr (h1 ▸ List.mem_cons_self _ _)
      · rcases mem_pagesSet h1 with h2 | h2
        · exact Or.inl h2
        · exact Or.inr (List.mem_cons_of_mem _ h2)

theorem nodup_getSet (p : Progress) (pid : String) : (getSet p pid).Nodup :=
  nodup_jsNewSet _

theorem mem_getSet_setSet {x : String} (p : Progress) (pid : String)
    (s : List String) : x ∈ getSet (setSet p pid s) pid ↔ x ∈ s := by
  simp [getSet, setSet, pagesGet_pagesSet_self, mem_jsNewSet, mem_jsSort]

theorem getSet_setSet_of_nodup {s : List String} (p : Progress) (pid : String)
    (h : s.Nodup) : getSet (setSet p pid s) pid = jsSort s := by
  simp [getSet, setSet, pagesGet_pagesSet_self, jsNewSet_eq_self (nodup_jsSort h)]

theorem mem_jsSetAdd {x w : String} {s : List String} :
    x ∈ jsSetAdd s w ↔ x ∈ s ∨ x = w := by
  by_cases h : w ∈ s
  · simp only [jsSetAdd, if_pos h]
    constructor
    · exact Or.inl
    · rintro (hx | rfl)
      · exact hx
      · exact h
  · simp [jsSetAdd, h]

theorem nodup_jsSetAdd {w : String} {s : List String} (hs : s.Nodup) :
    (jsSetAdd s w).Nodup := by
  by_cases h : w ∈ s
  · simpa [jsSetAdd, h] using hs
  · simp [jsSetAdd, h, List.nodup_append, hs]

theorem mem_jsSetDelete {x w : String} {s : List String} (hs : s.Nodup) :
    x ∈ jsSetDelete s w ↔ x ∈ s ∧ x ≠ w := by
  rw [jsSetDelete, hs.mem_erase_iff, and_comm]

theorem nodup_jsSetDelete {w : String} {s : List String} (hs : s.Nodup) :
    (jsSetDelete s w).Nodup :=
  hs.erase w

theorem set_of_getElem? {α : Type} :
    ∀ (l : List α) (i : Nat) (a : α), l[i]? = some a → l.set i a = l
  | [], i, a, h => by simp at h
  | b :: l, 0, a, h => by
    simp only [List.getElem?_cons_zero, Option.some.injEq] at h
    simp [h]
  | b :: l, i + 1, a, h => by
    simp only [List.getElem?_cons_succ] at h
    simp [List.set, set_of_getElem? l i a h]

theorem trimmedTexts_set {cells : List Cell} {i : Nat} {td : Cell} (b : Bool)
    (h : cells[i]? = some td) :
    trimmedTexts (cells.set i { td with learned := b }) = trimmedTexts cells := by
  unfold trimmedTexts
  rw [List.map_set]
  apply set_of_getElem?
  rw [List.getElem?_map, h]
  rfl

theorem countP_mem_eq_length {s t : List String} (hs : s.Nodup) (ht : t.Nodup)
    (hsub : ∀ x ∈ s, x ∈ t) :
    (t.countP fun x => decide (x ∈ s)) = s.length := by
  rw [List.countP_eq_length_filter]
  have hperm : (t.filter fun x => decide (x ∈ s)).Perm s := by
    rw [List.perm_ext_iff_of_nodup (ht.filter _) hs]
    intro a
    simp only [List.mem_filter, decide_eq_true_eq]
    exact ⟨fun ha => ha.2, fun ha => ⟨hsub a ha, ha⟩⟩
  exact hperm.length_eq

/-! ### Helper lemmas about the click handler -/

theorem clickWordCell_of_none {st : PMState} {i : Nat}
    (h : st.wordCells[i]? = none) : clickWordCell st i = st := by
  unfold clickWordCell
  rw [h]

theorem clickWordCell_pageId (st : PMState) (i : Nat) :
    (clickWordCell st i).pageId = st.pageId := by
  unfold clickWordCell
  cases st.wordCells[i]? with
  | none => rfl
  | some td =>
    by_cases hw : jsTrim td.text ∈ getSet st.progress st.pageId <;> simp [hw]

theorem clickWordCell_progress {st : PMState} {i : Nat} {td : Cell}
    (h : st.wordCells[i]? = some td) :
    (clickWordCell st i).progress =
      (if jsTrim td.text ∈ getSet st.progress st.pageId
       then setSet st.progress st.pageId
              (jsSetDelete (getSet st.progress st.pageId) (jsTrim td.text))
       else setSet st.progress st.pageId
              (jsSetAdd (getSet st.progress st.pageId) (jsTrim td.text))) := by
  unfold clickWordCell
  rw [h]
  by_cases hw : jsTrim td.text ∈ getSet st.progress st.pageId <;> simp [hw]

theorem clickWordCell_wordCells {st : PMState} {i : Nat} {td : Cell}
    (h : st.wordCells[i]? = some td) :
    (clickWordCell st i).wordCells =
      st.wordCells.set i
        { td with
          learned := decide (jsTrim td.text ∉ getSet st.progress st.pageId) } := by
  unfold clickWordCell
  rw [h]
  by_cases hw : jsTrim td.text ∈ getSet st.progress st.pageId <;> simp [hw]

theorem mem_getSet_click {st : PMState} {i : Nat} {td : Cell}
    (h : st.wordCells[i]? = some td) (x : String) :
    x ∈ getSet (clickWordCell st i).progress st.pageId ↔
      (x ∈ getSet st.progress st.pageId ↔ x ≠ jsTrim td.text) := by
  rw [clickWordCell_progress h]
  by_cases hw : jsTrim td.text ∈ getSet st.progress st.pageId
  · rw [if_pos hw, mem_getSet_setSet, mem_jsSetDelete (nodup_getSet _ _)]
    by_cases hxw : x = jsTrim td.text
    · subst hxw; simp [hw]
    · simp [hxw]
  · rw [if_neg hw, mem_getSet_setSet, mem_jsSetAdd]
    by_cases hxw : x = jsTrim td.text
    · subst hxw; simp [hw]
    · simp [hxw]

theorem inv_clickWordCell {st : PMState} (i : Nat) (h : Inv st) :
    Inv (clickWordCell st i) := by
  cases hc : st.wordCells[i]? with
  | none => rw [clickWordCell_of_none hc]; exact h
  | some td =>
    obtain ⟨hi, hgi⟩ := List.getElem?_eq_some.mp hc
    obtain ⟨hnd, hsub, hflag⟩ := h
    refine ⟨?_, ?_, ?_⟩
    · rw [clickWordCell_wordCells hc, trimmedTexts_set _ hc]
      exact hnd
    · intro x hx
      rw [clickWordCell_pageId] at hx
      rw [mem_getSet_click hc x] at hx
      rw [clickWordCell_wordCells hc, trimmedTexts_set _ hc]
      by_cases hxw : x = jsTrim td.text
      · subst hxw
        exact List.mem_map.mpr ⟨td, hgi ▸ List.getElem_mem hi, rfl⟩
      · exact hsub x (hx.mpr hxw)
    · intro j hj
      have hlen : (clickWordCell st i).wordCells.length = st.wordCells.length := by
        rw [clickWordCell_wordCells hc, List.length_set]
      have hj2 : j < st.wordCells.length := hlen ▸ hj
      rw [clickWordCell_pageId]
      by_cases hij : i = j
      · subst hij
        simp only [List.get_eq_getElem, clickWordCell_wordCells hc,
          List.getElem_set_self]
        have hmem := mem_getSet_click hc (jsTrim td.text)
        simp only [ne_eq, not_true_eq_false, iff_false] at hmem
        simp only [decide_eq_decide]
        exact hmem.symm
      · simp only [List.get_eq_getElem, clickWordCell_wordCells hc,
          List.getElem_set_ne hij]
        have hne : jsTrim (st.wordCells[j]).text ≠ jsTrim td.text := by
          intro heq
          apply hij
          have hmi : i < (trimmedTexts st.wordCells).length := by
            simpa [trimmedTexts] using hi
          have hmj : j < (trimmedTexts st.wordCells).length := by
            simpa [trimmedTexts] using hj2
          have h1 : (trimmedTexts st.wordCells).get ⟨i, hmi⟩ =
              (trimmedTexts st.wordCells).get ⟨j, hmj⟩ := by
            simp only [trimmedTexts, List.get_eq_getElem, List.getElem_map]
            rw [hgi, heq]
          simp only [List.get_eq_getElem] at h1
          exact hnd.getElem_inj_iff.mp h1
        have hmem := mem_getSet_click hc (jsTrim (st.wordCells[j]).text)
        simp only [ne_eq, hne, not_false_eq_true, iff_true] at hmem
        rw [decide_eq_decide.mpr hmem]
        have := hflag j hj2
        simpa using this

theorem inv_clickSeq {st : PMState} (is : List Nat) (h : Inv st) :
    Inv (clickSeq st is) := by
  induction is generalizing st with
  | nil => exact h
  | cons i rest ih => exact ih (inv_clickWordCell i h)

theorem inv_count_eq {st : PMState} (h : Inv st) :
    (getSet st.progress st.pageId).length = st.wordCells.countP (·.learned) := by
  obtain ⟨hnd, hsub, hflag⟩ := h
  have hmemflag : ∀ c ∈ st.wordCells,
      c.learned = decide (jsTrim c.text ∈ getSet st.progress st.pageId) := by
    intro c hcmem
    obtain ⟨⟨j, hj⟩, hcj⟩ := List.mem_iff_get.mp hcmem
    rw [← hcj]
    exact hflag j hj
  have h1 : st.wordCells.countP (·.learned) =
      st.wordCells.countP fun c =>
        decide (jsTrim c.text ∈ getSet st.progress st.pageId) := by
    apply List.countP_congr
    intro c hcmem
    simp [hmemflag c hcmem]
  have h2 : (st.wordCells.countP fun c =>
      decide (jsTrim c.text ∈ getSet st.progress st.pageId)) =
      ((trimmedTexts st.wordCells).countP fun x =>
        decide (x ∈ getSet st.progress st.pageId)) := by
    rw [trimmedTexts, List.countP_map]
    rfl
  rw [h1, h2]
  exact (countP_mem_eq_length (nodup_getSet _ _) hnd hsub).symm

theorem jsRoundPercent_eq_floor {l t : Nat} (ht : 0 < t) :
    (jsRoundPercent l t : ℤ) = ⌊(100 * (l : ℚ)) / (t : ℚ) + 1 / 2⌋ := by
  have ht0 : (t : ℚ) ≠ 0 := Nat.cast_ne_zero.mpr ht.ne'
  have key : (100 * (l : ℚ)) / (t : ℚ) + 1 / 2 =
      ((200 * l + t : ℕ) : ℚ) / ((2 * t : ℕ) : ℚ) := by
    push_cast
    field_simp
    ring
  rw [key, Rat.floor_natCast_div_natCast, jsRoundPercent]
  push_cast [Int.ofNat_ediv]
  rfl

end ProgressJS

namespace ProgressJS

/-! ### Claim theorems -/

/-- C1 counterexample: with no visible cells but one learned word in the
model set, `recompute()` publishes `learned = 0`, not the maximum `1` of
the visually-flagged count and the model-set size — the published value is
clamped to the number of visible items. -/
theorem recompute_learned_counterexample :
    (recalculateAndUpdateUI [] ⟨[("p", ["a"])]⟩ "p").learned = 0 ∧
    max (List.countP (·.learned) ([] : List Cell))
        (getSet ⟨[("p", ["a"])]⟩ "p").length = 1 ∧
    (recalculateAndUpdateUI [] ⟨[("p", ["a"])]⟩ "p").learned ≠
      max (List.countP (·.learned) ([] : List Cell))
        (getSet ⟨[("p", ["a"])]⟩ "p").length := by
  decide

/-- C1 amended: after `recompute()` the published learned value equals
`max(visually-flagged count, model-set size)` clamped to the number of
visible items (`min` with the total); the claimed equality holds exactly
when that maximum does not exceed the total. -/
theorem recompute_learned_clamped :
    ∀ (cells : List Cell) (p : Progress) (pid : String),
      (recalculateAndUpdateUI cells p pid).total = cells.length ∧
      (recalculateAndUpdateUI cells p pid).learned =
        min (max (cells.countP (·.learned)) (getSet p pid).length)
          cells.length ∧
      (max (cells.countP (·.learned)) (getSet p pid).length ≤ cells.length →
        (recalculateAndUpdateUI cells p pid).learned =
          max (cells.countP (·.learned)) (getSet p pid).length) := by
  intro cells p pid
  refine ⟨rfl, rfl, ?_⟩
  intro hle
  exact min_eq_left hle

/-- Witness for C1: on ten visible cells with three flagged and an empty
model set the maximum does not exceed the total and the published learned
value equals it. -/
theorem recompute_learned_clamped_witness :
    max (cells10.countP (·.learned)) (getSet ⟨[]⟩ "p").length ≤
      cells10.length ∧
    (recalculateAndUpdateUI cells10 ⟨[]⟩ "p").learned =
      max (cells10.countP (·.learned)) (getSet ⟨[]⟩ "p").length :=
  ⟨by decide, (recompute_learned_clamped cells10 ⟨[]⟩ "p").2.2 (by decide)⟩

/-- C2: a toggle activation on a cell flips the membership of the cell's
trimmed text in the model set (inserts if absent, removes if present);
toggling the same cell twice restores the original membership; and across
any sequence of toggles on cells with distinct identifiers the reconciled
invariant is preserved, under which the model-set size equals the number
of cells marked learned. -/
theorem toggle_spec :
    (∀ (st : PMState) (i : Nat) (td : Cell), st.wordCells[i]? = some td →
      ((clickWordCell st i).pageId = st.pageId ∧
       (jsTrim td.text ∈ getSet (clickWordCell st i).progress st.pageId ↔
         jsTrim td.text ∉ getSet st.progress st.pageId))) ∧
    (∀ (st : PMState) (i : Nat) (x : String),
      x ∈ getSet (clickWordCell (clickWordCell st i) i).progress st.pageId ↔
        x ∈ getSet st.progress st.pageId) ∧
    (∀ (st : PMState) (ks : List Nat), Inv st → Inv (clickSeq st ks)) ∧
    (∀ st : PMState, Inv st →
      (getSet st.progress st.pageId).length =
        st.wordCells.countP (·.learned)) := by
  refine ⟨?_, ?_, fun st ks h => inv_clickSeq ks h, fun st h => inv_count_eq h⟩
  · intro st i td h
    refine ⟨clickWordCell_pageId st i, ?_⟩
    rw [mem_getSet_click h]
    simp
  · intro st i x
    cases hc : st.wordCells[i]? with
    | none => rw [clickWordCell_of_none hc, clickWordCell_of_none hc]
    | some td =>
      have hi := (List.getElem?_eq_some.mp hc).1
      have h2 : (clickWordCell st i).wordCells[i]? =
          some { td with
            learned :=
              decide (jsTrim td.text ∉ getSet st.progress st.pageId) } := by
        rw [clickWordCell_wordCells hc]
        exact List.getElem?_set_self hi
      have m2 := mem_getSet_click h2 x
      rw [clickWordCell_pageId] at m2
      have hw2 : jsTrim ({ td with
          learned :=
            decide (jsTrim td.text ∉ getSet st.progress st.pageId) } : Cell).text =
          jsTrim td.text := rfl
      rw [hw2] at m2
      have m1x := mem_getSet_click hc x
      rw [m2, m1x]
      tauto

/-- Witness for C2: the toggle properties instantiated on a concrete
two-cell state, with the invariant hypotheses discharged by evaluation. -/
theorem toggle_spec_witness :
    sampleState.wordCells[0]? = some { text := "a", learned := false } ∧
    ((clickWordCell sampleState 0).pageId = sampleState.pageId ∧
      (jsTrim ({ text := "a", learned := false } : Cell).text ∈
          getSet (clickWordCell sampleState 0).progress sampleState.pageId ↔
        jsTrim ({ text := "a", learned := false } : Cell).text ∉
          getSet sampleState.progress sampleState.pageId)) ∧
    Inv sampleState ∧
    Inv (clickSeq sampleState [0, 1, 0]) ∧
    (getSet sampleState.progress sampleState.pageId).length =
      sampleState.wordCells.countP (·.learned) :=
  ⟨by decide,
   toggle_spec.1 sampleState 0 { text := "a", learned := false } (by decide),
   by decide,
   toggle_spec.2.2.1 sampleState [0, 1, 0] (by decide),
   toggle_spec.2.2.2 sampleState (by decide)⟩

/-- C3 counterexample: a bare page-identifier mapping read back from the
durable store is installed by `boot()` verbatim — the installed document
has no `pages` wrapper at all, so the legacy shape is not normalized on
this path. -/
theorem boot_bare_mapping_counterexample :
    bootAssign (some (.obj [("verbs", .arr [.str "sein"])])) emptyDocJs =
      .obj [("verbs", .arr [.str "sein"])] ∧
    getProp (bootAssign (some (.obj [("verbs", .arr [.str "sein"])])) emptyDocJs)
      "pages" = none :=
  ⟨rfl, rfl⟩

/-- C3 amended: only `loadFromFile` normalizes a bare mapping (an object
without a truthy `pages` property) into the `pages` wrapper; the
durable-store `boot()` path installs the stored value unchanged. -/
theorem legacy_normalization_spec :
    ∀ (fields : List (String × JsValue)) (d : JsValue),
      truthyProp (.obj fields) "pages" = false →
      (loadFromFileAssign (some (.obj fields)) =
          .obj [("pages", .obj fields)] ∧
       bootAssign (some (.obj fields)) d = .obj fields) := by
  intro fields d h
  constructor
  · simp [loadFromFileAssign, truthy, isObjectType, h]
  · rfl

/-- Witness for C3: the legacy shape `{verbs: ["sein"]}` is wrapped by the
file-load path. -/
theorem legacy_normalization_spec_witness :
    truthyProp (.obj [("verbs", JsValue.arr [.str "sein"])]) "pages" = false ∧
    loadFromFileAssign (some (.obj [("verbs", JsValue.arr [.str "sein"])])) =
      .obj [("pages", .obj [("verbs", JsValue.arr [.str "sein"])])] :=
  ⟨rfl,
   (legacy_normalization_spec [("verbs", .arr [.str "sein"])] emptyDocJs rfl).1⟩

/-- C4 counterexample: the file content `{"pages": 5}` parses to an object
with a truthy `pages` property, so `loadFromFile` installs it as is even
though it is not a valid document shape (and is not the empty document,
whose shape is valid). -/
theorem loadFromFile_invalid_counterexample :
    loadFromFileAssign (some (.obj [("pages", .num 5)])) =
      .obj [("pages", .num 5)] ∧
    isValidDocShape (.obj [("pages", .num 5)]) = false ∧
    isValidDocShape emptyDocJs = true :=
  ⟨rfl, rfl, rfl⟩

/-- C4 amended: `loadFromFile` installs the empty document exactly on
parse failure or a non-object (or null) parse result; any truthy object
result is installed — wrapped under `pages` when it lacks a truthy `pages`
property — with no validation of the inner structure, and the installed
value always has a `pages` property. -/
theorem loadFromFile_fallback_spec :
    (loadFromFileAssign none = emptyDocJs) ∧
    (∀ v : JsValue, (truthy v && isObjectType v) = false →
      loadFromFileAssign (some v) = emptyDocJs) ∧
    (∀ v : JsValue, (truthy v && isObjectType v) = true →
      loadFromFileAssign (some v) = v ∨
        loadFromFileAssign (some v) = .obj [("pages", v)]) ∧
    (∀ p : Option JsValue, ∃ w, getProp (loadFromFileAssign p) "pages" = some w) := by
  refine ⟨rfl, ?_, ?_, ?_⟩
  · intro v hv
    simp [loadFromFileAssign, hv]
  · intro v hv
    by_cases hp : truthyProp v "pages"
    · left
      simp [loadFromFileAssign, hv, hp]
    · right
      simp [loadFromFileAssign, hv, hp]
  · intro p
    cases p with
    | none => exact ⟨.obj [], rfl⟩
    | some v =>
      by_cases hv : (truthy v && isObjectType v) = true
      · by_cases hp : truthyProp v "pages" = true
        · cases hgp : getProp v "pages" with
          | none =>
            rw [truthyProp, hgp] at hp
            exact absurd hp (by simp)
          | some f =>
            refine ⟨f, ?_⟩
            simp [loadFromFileAssign, hv, hp, hgp]
        · refine ⟨v, ?_⟩
          simp [loadFromFileAssign, hv, hp, getProp, lookupField]
      · refine ⟨.obj [], ?_⟩
        have hv2 : (truthy v && isObjectType v) = false := by
          simpa using hv
        simp [loadFromFileAssign, hv2, emptyDocJs, getProp, lookupField]

/-- Witness for C4: a numeric parse result falls back to the empty
document; an array parse result is an object in the JavaScript sense and
gets installed wrapped. -/
theorem loadFromFile_fallback_spec_witness :
    (truthy (.num 0) && isObjectType (.num 0)) = false ∧
    loadFromFileAssign (some (.num 0)) = emptyDocJs ∧
    (truthy (.arr []) && isObjectType (.arr [])) = true ∧
    (loadFromFileAssign (some (.arr [])) = .arr [] ∨
      loadFromFileAssign (some (.arr [])) = .obj [("pages", .arr [])]) :=
  ⟨rfl, loadFromFile_fallback_spec.2.1 _ rfl, rfl,
   loadFromFile_fallback_spec.2.2.1 _ rfl⟩

/-- C5: when the durable-store put fails, `saveProgressToDB` leaves both
the in-memory Progress Document and the stored document unchanged and only
writes the failure message to the status surface; the in-memory document
is unchanged for every outcome (and the model is a total function — the
`catch` converts every failure into a status update rather than a thrown
error). -/
theorem saveProgressToDB_failure_spec :
    ∀ st : SaveState,
      (saveProgressToDB false st).progress = st.progress ∧
      (saveProgressToDB false st).dbStored = st.dbStored ∧
      (saveProgressToDB false st).statusText = "Помилка збереження." ∧
      ∀ ok : Bool, (saveProgressToDB ok st).progress = st.progress := by
  intro st
  refine ⟨rfl, rfl, rfl, ?_⟩
  intro ok
  cases ok <;> rfl

/-- C6: `addWordCellListener` is idempotent — the first call on an unbound
cell sets the Binding Flag and attaches exactly one handler, any call on a
bound cell is a no-op — and a scan over n unbound cells attaches exactly n
handlers while rescanning the same cells changes nothing. -/
theorem binding_idempotent_spec :
    (∀ td : Cell,
      addWordCellListener (addWordCellListener td) = addWordCellListener td) ∧
    (∀ td : Cell, td.listenerBound = true → addWordCellListener td = td) ∧
    (∀ td : Cell, td.listenerBound = false →
      (addWordCellListener td).listenerBound = true ∧
      (addWordCellListener td).handlers = td.handlers + 1) ∧
    (∀ cells : List Cell, bindCells (bindCells cells) = bindCells cells) ∧
    (∀ cells : List Cell,
      (∀ c ∈ cells, c.listenerBound = false ∧ c.handlers = 0) →
      totalHandlers (bindCells cells) = cells.length ∧
      ∀ c ∈ bindCells cells, c.listenerBound = true ∧ c.handlers = 1) := by
  have hidem : ∀ td : Cell,
      addWordCellListener (addWordCellListener td) = addWordCellListener td := by
    intro td
    by_cases h : td.listenerBound <;> simp [addWordCellListener, h]
  have hsum : ∀ cells : List Cell,
      (∀ c ∈ cells, c.listenerBound = false ∧ c.handlers = 0) →
      totalHandlers (bindCells cells) = cells.length := by
    intro cells
    induction cells with
    | nil => intro _; rfl
    | cons c cs ih =>
      intro h
      have hc := h c (List.mem_cons_self c cs)
      have ih2 := ih fun d hd => h d (List.mem_cons_of_mem c hd)
      have hbind : addWordCellListener c =
          { c with listenerBound := true, handlers := c.handlers + 1 } := by
        simp [addWordCellListener, hc.1]
      simp only [bindCells, List.map_cons, totalHandlers, List.sum_cons] at ih2 ⊢
      rw [hbind]
      simp only [List.length_cons, hc.2]
      omega
  refine ⟨hidem, ?_, ?_, ?_, ?_⟩
  · intro td h
    simp [addWordCellListener, h]
  · intro td h
    simp [addWordCellListener, h]
  · intro cells
    rw [bindCells, bindCells, List.map_map]
    exact List.map_congr_left fun a _ => hidem a
  · intro cells h
    refine ⟨hsum cells h, ?_⟩
    intro c hc2
    obtain ⟨d, hd, rfl⟩ := List.mem_map.mp hc2
    have hdprop := h d hd
    simp [addWordCellListener, hdprop.1, hdprop.2]

/-- Witness for C6: a bound cell is untouched, an unbound cell gains the
flag and one handler, and scanning five fresh cells attaches exactly five
handlers. -/
theorem binding_idempotent_spec_witness :
    (⟨"x", false, true, 1⟩ : Cell).listenerBound = true ∧
    addWordCellListener ⟨"x", false, true, 1⟩ = ⟨"x", false, true, 1⟩ ∧
    (⟨"y", false, false, 0⟩ : Cell).listenerBound = false ∧
    (addWordCellListener ⟨"y", false, false, 0⟩).handlers = 0 + 1 ∧
    (∀ c ∈ cells5, c.listenerBound = false ∧ c.handlers = 0) ∧
    totalHandlers (bindCells cells5) = cells5.length :=
  ⟨rfl,
   binding_idempotent_spec.2.1 ⟨"x", false, true, 1⟩ rfl,
   rfl,
   (binding_idempotent_spec.2.2.1 ⟨"y", false, false, 0⟩ rfl).2,
   by decide,
   (binding_idempotent_spec.2.2.2.2 cells5 (by decide)).1⟩

/-- C7: `updateProgressUI` publishes `percent = 0` when the total is zero,
otherwise the percentage is the half-up rounding of `100 · learned /
total` for the published pair, and the spec's worked example — ten visible
items, three learned — publishes `total = 10, learned = 3, percent =
30` (also through the full `recompute()` pipeline). -/
theorem updateProgressUI_percent_spec :
    (∀ l : Nat, updateProgressUI 0 l = ⟨0, 0, 0⟩) ∧
    (∀ t l : Nat, 0 < t →
      ((updateProgressUI t l).percent : ℤ) =
        ⌊(100 * ((updateProgressUI t l).learned : ℚ)) /
            ((updateProgressUI t l).total : ℚ) + 1 / 2⌋) ∧
    updateProgressUI 10 3 = ⟨3, 10, 30⟩ ∧
    recalculateAndUpdateUI cells10 ⟨[("verbs", ["w1", "w3", "w5"])]⟩ "verbs" =
      ⟨3, 10, 30⟩ := by
  refine ⟨?_, ?_, by decide, by decide⟩
  · intro l
    simp [updateProgressUI]
  · intro t l ht
    have h3 : (updateProgressUI t l).percent = jsRoundPercent (min l t) t := by
      simp [updateProgressUI, ht.ne']
    rw [h3]
    exact jsRoundPercent_eq_floor ht

/-- Witness for C7: the nonzero-total percentage formula instantiated at
ten visible items with three learned. -/
theorem updateProgressUI_percent_spec_witness :
    0 < 10 ∧
    ((updateProgressUI 10 3).percent : ℤ) =
      ⌊(100 * ((updateProgressUI 10 3).learned : ℚ)) /
          ((updateProgressUI 10 3).total : ℚ) + 1 / 2⌋ :=
  ⟨by decide, updateProgressUI_percent_spec.2.1 10 3 (by decide)⟩

/-- C8 counterexample: a loaded file whose page array is unsorted and
duplicated is installed verbatim by `loadFromFile`, so the load operation
does not preserve the sorted/duplicate-free document invariant. -/
theorem load_noncanonical_counterexample :
    loadFromFileAssign
        (some (.obj [("pages",
          .obj [("p", .arr [.str "b", .str "a", .str "a"])])])) =
      .obj [("pages", .obj [("p", .arr [.str "b", .str "a", .str "a"])])] ∧
    progressOfJs
        (.obj [("pages", .obj [("p", .arr [.str "b", .str "a", .str "a"])])]) =
      some ⟨[("p", ["b", "a", "a"])]⟩ ∧
    ¬ canonicalPages ⟨[("p", ["b", "a", "a"])]⟩ := by
  refine ⟨rfl, rfl, ?_⟩
  intro h
  have hmem := h ("p", ["b", "a", "a"]) (by simp)
  exact absurd hmem.2 (by decide)

/-- C8 amended: `setSet` always stores the active page's set as a sorted
array that is duplicate-free whenever the set is, so it and the toggle
path preserve the canonical invariant on every page of the document; the
verbatim document-install paths (see the counterexample) do not. -/
theorem setSet_canonical_spec :
    (∀ (p : Progress) (pid : String) (s : List String),
      pagesGet (setSet p pid s).pages pid = some (jsSort s) ∧
      (jsSort s).Sorted (· ≤ ·) ∧
      (s.Nodup → (jsSort s).Nodup) ∧
      (canonicalPages p → s.Nodup → canonicalPages (setSet p pid s))) ∧
    (∀ (st : PMState) (i : Nat),
      canonicalPages st.progress →
        canonicalPages (clickWordCell st i).progress) := by
  have hset : ∀ (p : Progress) (pid : String) (s : List String),
      canonicalPages p → s.Nodup → canonicalPages (setSet p pid s) := by
    intro p pid s hp hs e he
    rcases mem_pagesSet he with rfl | he2
    · exact ⟨sorted_jsSort s, nodup_jsSort hs⟩
    · exact hp e he2
  refine ⟨fun p pid s =>
    ⟨pagesGet_pagesSet_self _ _ _, sorted_jsSort s, nodup_jsSort,
     hset p pid s⟩, ?_⟩
  intro st i hp
  cases hc : st.wordCells[i]? with
  | none =>
    rw [clickWordCell_of_none hc]
    exact hp
  | some td =>
    rw [clickWordCell_progress hc]
    by_cases hw : jsTrim td.text ∈ getSet st.progress st.pageId
    · rw [if_pos hw]
      exact hset _ _ _ hp (nodup_jsSetDelete (nodup_getSet _ _))
    · rw [if_neg hw]
      exact hset _ _ _ hp (nodup_jsSetAdd (nodup_getSet _ _))

/-- Witness for C8: canonicality established by `setSet` and preserved by
a toggle, from a concrete document. -/
theorem setSet_canonical_spec_witness :
    (["x"] : List String).Nodup ∧
    (jsSort ["x"]).Nodup ∧
    canonicalPages (setSet emptyProgress "p" ["x"]) ∧
    canonicalPages
      (clickWordCell ⟨"p", emptyProgress, [{ text := "a", learned := false }]⟩
        0).progress :=
  ⟨by decide,
   (setSet_canonical_spec.1 emptyProgress "p" ["x"]).2.2.1 (by decide),
   (setSet_canonical_spec.1 emptyProgress "p" ["x"]).2.2.2
     (fun e he => nomatch he) (by decide),
   setSet_canonical_spec.2 ⟨"p", emptyProgress, [{ text := "a", learned := false }]⟩
     0 (fun e he => nomatch he)⟩

/-- C9: `getSet` is total (it always returns a duplicate-free list), it
returns the empty set when the page has no entry, and otherwise its result
has exactly the members of the stored array. -/
theorem getSet_total_spec :
    ∀ (p : Progress) (pid : String),
      (getSet p pid).Nodup ∧
      (pagesGet p.pages pid = none → getSet p pid = []) ∧
      (∀ arr : List String, pagesGet p.pages pid = some arr →
        ∀ x : String, x ∈ getSet p pid ↔ x ∈ arr) := by
  intro p pid
  refine ⟨nodup_getSet p pid, ?_, ?_⟩
  · intro h
    unfold getSet
    rw [h]
    rfl
  · intro arr h x
    unfold getSet
    rw [h]
    exact mem_jsNewSet x arr

/-- Witness for C9: the absent-page and present-page cases instantiated on
a concrete document. -/
theorem getSet_total_spec_witness :
    pagesGet (⟨[("p", ["a", "a"])]⟩ : Progress).pages "q" = none ∧
    getSet ⟨[("p", ["a", "a"])]⟩ "q" = [] ∧
    pagesGet (⟨[("p", ["a", "a"])]⟩ : Progress).pages "p" = some ["a", "a"] ∧
    ("a" ∈ getSet ⟨[("p", ["a", "a"])]⟩ "p" ↔ "a" ∈ (["a", "a"] : List String)) :=
  ⟨rfl,
   (getSet_total_spec ⟨[("p", ["a", "a"])]⟩ "q").2.1 rfl,
   rfl,
   (getSet_total_spec ⟨[("p", ["a", "a"])]⟩ "p").2.2 ["a", "a"] rfl "a"⟩

/-- C10: `ensurePermission` answers `'denied'` for a null handle without
any platform call; for a non-null handle it queries exactly once, requests
at most once — exactly when the queried state is `'prompt'` — and returns
the request result in that case and the queried state otherwise. -/
theorem ensurePermission_spec :
    ensurePermission none = ⟨.denied, 0, 0⟩ ∧
    ∀ h : FileHandle,
      (ensurePermission (some h)).queries = 1 ∧
      (ensurePermission (some h)).requests ≤ 1 ∧
      (ensurePermission (some h)).requests =
        (if h.queryResult = .prompt then 1 else 0) ∧
      (ensurePermission (some h)).result =
        (if h.queryResult = .prompt then h.requestResult
         else h.queryResult) := by
  refine ⟨rfl, ?_⟩
  intro h
  cases hq : h.queryResult <;> simp [ensurePermission, hq]

end ProgressJS
